import Mathlib

/-!
Verification development for the Midnight multiplayer dice-game server.

The server keeps one `GameState` record per room in an external key-value
store.  Socket handlers (`joinRoom`, `rollDice`, `keepDice`, `endTurn`,
`playAgain`, `disconnect`) load the record, validate the action, mutate the
state, persist it and broadcast it.  The definitions below embed the
TypeScript server code: JavaScript objects with string keys become
association lists that preserve insertion order (`Object.keys` order),
JavaScript arrays become Lean lists, numbers become `Int`, and the
store-visible effects of a handler are recorded explicitly in an `Effects`
record (the room state after the handler, the states written to the store,
and the states broadcast to the room, each in order).
-/

namespace Midnight

/-- A player record: `{ id, name }`. -/
structure Player where
  id : String
  name : String
deriving Repr, DecidableEq

/-- Lookup in a JavaScript object embedded as an association list
(`obj[k]`, `undefined` becoming `none`). -/
def mapLookup {α : Type} (m : List (String × α)) (k : String) : Option α :=
  (m.find? (fun e => e.1 = k)).map (fun e => e.2)

/-- Assignment `obj[k] = v` on a JavaScript object: an existing key keeps
its position, a new key is appended (string-key insertion order). -/
def mapInsert {α : Type} (m : List (String × α)) (k : String) (v : α) :
    List (String × α) :=
  if m.any (fun e => e.1 = k) then
    m.map (fun e => if e.1 = k then (k, v) else e)
  else
    m ++ [(k, v)]

/-- `delete obj[k]`. -/
def mapErase {α : Type} (m : List (String × α)) (k : String) :
    List (String × α) :=
  m.filter (fun e => e.1 ≠ k)

/-- `Object.keys(obj)`, in insertion order. -/
def mapKeys {α : Type} (m : List (String × α)) : List String :=
  m.map (fun e => e.1)

/-- The per-room game state (`interface GameState`). -/
structure GameState where
  players : List (String × Player)
  dice : List Int
  keptDice : List Bool
  rollCount : Nat
  currentPlayer : Option String
  scores : List (String × Int)
  roundScores : List (String × Int)
  turnScore : Int
  mustKeepDie : Bool
  isRolling : Bool
  playerOrder : List String
  playersPlayedThisRound : List String
  roundEnded : Bool
  roundWinner : Option String
deriving Repr, DecidableEq

/-- `createInitialGameState()`. -/
def createInitialGameState : GameState where
  players := []
  dice := [0, 0, 0, 0, 0, 0]
  keptDice := [false, false, false, false, false, false]
  rollCount := 0
  currentPlayer := none
  scores := []
  roundScores := []
  turnScore := 0
  mustKeepDie := false
  isRolling := false
  playerOrder := []
  playersPlayedThisRound := []
  roundEnded := false
  roundWinner := none

/-- JavaScript `Array.prototype.indexOf`: index of the first occurrence,
`-1` when absent. -/
def indexOfJS (l : List String) (x : String) : Int :=
  match l.findIdx? (fun y => y = x) with
  | some i => (i : Int)
  | none => -1

/-- `getNextPlayer(roomState)`: successor of `currentPlayer` in
`playerOrder` (wrapping), first entry when `currentPlayer` is absent,
falling back to `Object.keys(players)` when `playerOrder` is empty. -/
def getNextPlayer (s : GameState) : Option String :=
  if 0 < s.playerOrder.length then
    let ci := indexOfJS s.playerOrder (s.currentPlayer.getD "")
    if ci = -1 then s.playerOrder[0]?
    else s.playerOrder[((ci + 1) % (s.playerOrder.length : Int)).toNat]?
  else
    let playerIds := mapKeys s.players
    if playerIds.length = 0 then none
    else
      let ci := indexOfJS playerIds (s.currentPlayer.getD "")
      if ci = -1 then playerIds[0]?
      else playerIds[((ci + 1) % (playerIds.length : Int)).toNat]?

/-- `resetTurnState(roomState)`. -/
def resetTurnState (s : GameState) : GameState :=
  { s with
    dice := [0, 0, 0, 0, 0, 0]
    keptDice := [false, false, false, false, false, false]
    rollCount := 0
    turnScore := 0
    mustKeepDie := false }

/-- `checkRoundEnd(roomState)`: `new Set(playersPlayedThisRound).size >=
Object.keys(players).length`. -/
def checkRoundEnd (s : GameState) : Bool :=
  decide ((mapKeys s.players).length ≤ s.playersPlayedThisRound.dedup.length)

/-- One step of the `forEach` accumulation in `determineRoundWinner`:
the accumulator is the pair (highestScore, winners). -/
def winnerStep (acc : Int × List String) (e : String × Int) :
    Int × List String :=
  if acc.1 < e.2 then (e.2, [e.1])
  else if e.2 = acc.1 then (acc.1, acc.2 ++ [e.1])
  else acc

/-- `determineRoundWinner(roomState)`: scans `roundScores` keeping the
running maximum and the list of co-maximal ids; a unique maximum wins,
a tie yields `null`. -/
def determineRoundWinner (s : GameState) : Option String :=
  let r := s.roundScores.foldl winnerStep (-1, [])
  if r.2.length = 1 then r.2[0]? else none

/-- JavaScript truthiness of a `string | null` value: `null` and the
empty string are falsy. -/
def strTruthy : Option String → Bool
  | none => false
  | some c => !(c = "")

/-- `startNewRound`, as the transformation it applies to the fetched
room state before saving it back. -/
def startNewRound (s : GameState) : GameState :=
  let s1 := { s with
    roundEnded := false
    playersPlayedThisRound := []
    roundScores := []
    scores := s.scores.map (fun (e : String × Int) => (e.1, (0 : Int))) }
  let s2 :=
    match s1.roundWinner with
    | some w =>
        if !(w = "") && (mapLookup s1.players w).isSome then
          let newOrder :=
            if (indexOfJS s1.playerOrder w) = -1 then s1.playerOrder
            else w :: s1.playerOrder.erase w
          { s1 with playerOrder := newOrder, currentPlayer := some w }
        else
          { s1 with currentPlayer := s1.playerOrder[0]? }
    | none => { s1 with currentPlayer := s1.playerOrder[0]? }
  resetTurnState s2

/-- `dice.some((die, i) => keptDice[i] && die === v)`: walks the dice in
order; a missing `keptDice[i]` is `undefined`, hence falsy. -/
def someKept (dice : List Int) (kept : List Bool) (v : Int) : Bool :=
  match dice, kept with
  | [], _ => false
  | _ :: _, [] => false
  | d :: ds, k :: ks => (k && d = v) || someKept ds ks v

/-- The `for (i = 0; i < n; i++)` scoring loop of the `endTurn` handler:
adds `dice[i]` whenever `keptDice[i]` holds and `dice[i]` is neither 1
nor 4. -/
def turnScoreLoop (dice : List Int) (kept : List Bool) : Nat → Int
  | 0 => 0
  | n + 1 =>
      turnScoreLoop dice kept n +
        (if kept.getD n false && !(dice.getD n 0 = 1) && !(dice.getD n 0 = 4)
         then dice.getD n 0 else 0)

/-- The turn score computed by the `endTurn` handler: zero unless some
kept die shows 1 and some kept die shows 4, else the loop sum over the 6
dice. -/
def computeTurnScore (dice : List Int) (kept : List Bool) : Int :=
  if someKept dice kept 1 && someKept dice kept 4 then
    turnScoreLoop dice kept 6
  else 0

/-- Store-visible outcome of one handler invocation: the authoritative
room state when the handler returns, the successive states persisted to
the store, and the successive states broadcast to the room. -/
structure Effects where
  state : GameState
  saved : List GameState
  broadcast : List GameState
deriving Repr, DecidableEq

/-- The synchronous part of the `rollDice` handler: validates the caller
against `currentPlayer`, `mustKeepDie` and the all-dice-kept condition,
then sets `isRolling`, persists and broadcasts.  A failed guard returns
with no state change, no save and no broadcast. -/
def rollDiceStart (s : GameState) (actor : String) : Effects :=
  if !(some actor = s.currentPlayer) then ⟨s, [], []⟩
  else if s.mustKeepDie then ⟨s, [], []⟩
  else if !(s.keptDice.any (fun kept => !kept)) && decide (0 < s.rollCount)
    then ⟨s, [], []⟩
  else
    let s1 := { s with isRolling := true }
    ⟨s1, [s1], [s1]⟩

/-- The `for (i = 0; i < n; i++)` re-roll loop of the delayed roll
completion: assigns `rng i` to every die index not marked kept. -/
def rollLoop (dice : List Int) (kept : List Bool) (rng : Nat → Int)
    (n : Nat) : List Int :=
  (List.range n).foldl
    (fun d i => if !(kept.getD i false) then d.set i (rng i) else d) dice

/-- The `setTimeout` callback of `rollDice`: re-fetches the state after
the delay (`fetched`, `none` when the room vanished) and re-validates
that `actor` is still `currentPlayer` and the state is still `isRolling`;
when invalidated nothing is written, otherwise the unkept dice are
re-rolled with `rng`, `rollCount` is incremented, `mustKeepDie` is set
and `isRolling` cleared.  `none` means no write and no broadcast. -/
def rollDiceComplete (fetched : Option GameState) (actor : String)
    (rng : Nat → Int) : Option GameState :=
  match fetched with
  | none => none
  | some c =>
      if !(c.currentPlayer = some actor) || !c.isRolling then none
      else
        some { c with
          dice := rollLoop c.dice c.keptDice rng 6
          rollCount := c.rollCount + 1
          mustKeepDie := true
          isRolling := false }

/-- The `keepDice(index)` handler on the fetched room state: guards
(turn ownership, at least one roll, index in `[0, 6)`, die rolled), then
toggles `keptDice[index]` and maintains `mustKeepDie`.  The returned
state is persisted and broadcast exactly when it differs from a guard
rejection; the guards leave the state unchanged. -/
def keepDice (s : GameState) (actor : String) (index : Int) : GameState :=
  if !(some actor = s.currentPlayer) then s
  else if s.rollCount = 0 then s
  else if index < 0 || 6 ≤ index then s
  else if s.dice.getD index.toNat 0 = 0 then s
  else
    let i := index.toNat
    let wasKept := s.keptDice.getD i false
    let kept1 := s.keptDice.set i (!wasKept)
    let s1 := { s with keptDice := kept1 }
    if kept1.getD i false then { s1 with mustKeepDie := false }
    else if !(kept1.any (fun kept => kept)) then { s1 with mustKeepDie := true }
    else s1

/-- The successful path of the `joinRoom` handler on an existing room
state: inserts or updates the player entry (with name sanitisation),
zero-initialises missing score entries, appends to `playerOrder` when
absent, and claims the turn (with a turn-state reset) when no
`currentPlayer` is set. -/
def joinRoom (s : GameState) (pid name : String) : GameState :=
  let safeName :=
    if name.trim = "" then "Player_" ++ pid.take 4 else name.trim
  let s1 := { s with players := mapInsert s.players pid ⟨pid, safeName⟩ }
  let s2 :=
    if (mapLookup s1.scores pid).isSome then s1
    else { s1 with scores := mapInsert s1.scores pid 0 }
  let s3 :=
    if (mapLookup s2.roundScores pid).isSome then s2
    else { s2 with roundScores := mapInsert s2.roundScores pid 0 }
  let s4 :=
    if s3.playerOrder.contains pid then s3
    else { s3 with playerOrder := s3.playerOrder ++ [pid] }
  if strTruthy s4.currentPlayer then s4
  else resetTurnState { s4 with currentPlayer := some pid }

/-- The current `endTurn` handler.  After the turn-ownership guard it
computes the turn score, adds it to `scores`, records it in
`roundScores` and marks the caller in `playersPlayedThisRound` (all on
the in-memory copy); when `checkRoundEnd` holds it sets `roundEnded` and
`roundWinner`, persists and broadcasts.  The handler body ends there:
on the not-ended path nothing is persisted or broadcast, so the
store-visible room state stays as fetched. -/
def endTurn (s : GameState) (actor : String) : Effects :=
  if !(some actor = s.currentPlayer) then ⟨s, [], []⟩
  else
    let turnScore := computeTurnScore s.dice s.keptDice
    let s1 := { s with
      scores := mapInsert s.scores actor
        ((mapLookup s.scores actor).getD 0 + turnScore)
      roundScores := mapInsert s.roundScores actor turnScore }
    let s2 :=
      if s1.playersPlayedThisRound.contains actor then s1
      else { s1 with
        playersPlayedThisRound := s1.playersPlayedThisRound ++ [actor] }
    if checkRoundEnd s2 then
      let s3 := { s2 with
        roundEnded := true
        roundWinner := determineRoundWinner s2 }
      ⟨s3, [s3], [s3]⟩
    else ⟨s, [], []⟩

/-- The earlier variant of the `endTurn` handler also present in the
sources: identical up to the round-end branch, but on the not-ended path
it advances `currentPlayer` via `getNextPlayer`, resets the turn state
for the new holder (or defensively nulls `currentPlayer`), persists and
broadcasts. -/
def endTurnPrev (s : GameState) (actor : String) : Effects :=
  if !(some actor = s.currentPlayer) then ⟨s, [], []⟩
  else
    let turnScore := computeTurnScore s.dice s.keptDice
    let s1 := { s with
      scores := mapInsert s.scores actor
        ((mapLookup s.scores actor).getD 0 + turnScore)
      roundScores := mapInsert s.roundScores actor turnScore }
    let s2 :=
      if s1.playersPlayedThisRound.contains actor then s1
      else { s1 with
        playersPlayedThisRound := s1.playersPlayedThisRound ++ [actor] }
    if checkRoundEnd s2 then
      let s3 := { s2 with
        roundEnded := true
        roundWinner := determineRoundWinner s2 }
      ⟨s3, [s3], [s3]⟩
    else
      let s3 :=
        match getNextPlayer s2 with
        | some np => resetTurnState { s2 with currentPlayer := some np }
        | none => { s2 with currentPlayer := none }
      ⟨s3, [s3], [s3]⟩

/-- The `playAgain` handler on the fetched room state: ignored unless
`roundEnded`, otherwise `startNewRound`. -/
def playAgain (s : GameState) : GameState :=
  if s.roundEnded then startNewRound s else s

/-- The `disconnect` handler on the fetched room state: removes the
player from `players`, `scores`, `roundScores`, `playerOrder` and
`playersPlayedThisRound`; when the departing player held the turn, the
turn advances via `getNextPlayer` with a turn-state reset (or
`currentPlayer` is nulled when nobody is left). -/
def disconnect (s : GameState) (pid : String) : GameState :=
  let wasCurrentPlayer := s.currentPlayer = some pid
  let s1 := { s with
    players := mapErase s.players pid
    scores := mapErase s.scores pid
    roundScores := mapErase s.roundScores pid
    playerOrder := s.playerOrder.filter (fun i => i ≠ pid)
    playersPlayedThisRound :=
      if -1 < indexOfJS s.playersPlayedThisRound pid then
        s.playersPlayedThisRound.erase pid
      else s.playersPlayedThisRound }
  if wasCurrentPlayer then
    match getNextPlayer s1 with
    | some np => resetTurnState { s1 with currentPlayer := some np }
    | none => { s1 with currentPlayer := none }
  else s1

/-- Spec-level round-robin successor, following the spec text for
`getNextPlayer`: the entry after `cur` in `order` (wrapping to the
start), the first entry when `cur` is absent, `none` when `order` is
empty. -/
def nextRoundRobin (order : List String) (cur : Option String) :
    Option String :=
  match order with
  | [] => none
  | _ :: _ =>
      match cur with
      | none => order[0]?
      | some c =>
          match order.findIdx? (fun y => y = c) with
          | none => order[0]?
          | some i => order[(i + 1) % order.length]?

/-- Spec-level reformulation of the scoring sum: total of the kept dice
whose value is neither 1 nor 4. -/
def keptScoreSum (dice : List Int) (kept : List Bool) : Int :=
  (((dice.zip kept).filter
      (fun p => p.2 && !(p.1 = 1) && !(p.1 = 4))).map Prod.fst).sum

/-- Running maximum of the scores of `m` starting from `h0` (the
`highestScore` accumulator of `determineRoundWinner`). -/
def maxRunning (m : List (String × Int)) (h0 : Int) : Int :=
  m.foldl (fun a e => max a e.2) h0

/-- Authoritative room state after the delayed roll completion: the
fetched state itself when the callback declines to write. -/
def rollCompleteState (s : GameState) (actor : String) (rng : Nat → Int) :
    GameState :=
  (rollDiceComplete (some s) actor rng).getD s

/-- One store-visible transition of a room: any handler, invoked by any
actor with any payload (the roll delay's random values are an arbitrary
`rng`).  The delayed roll completion is a separate step, so sequences of
steps cover the interleavings the store admits. -/
inductive Step : GameState → GameState → Prop
  | join (s : GameState) (pid name : String) : Step s (joinRoom s pid name)
  | rollStart (s : GameState) (actor : String) :
      Step s (rollDiceStart s actor).state
  | rollComplete (s : GameState) (actor : String) (rng : Nat → Int) :
      Step s (rollCompleteState s actor rng)
  | keep (s : GameState) (actor : String) (index : Int) :
      Step s (keepDice s actor index)
  | endT (s : GameState) (actor : String) : Step s (endTurn s actor).state
  | again (s : GameState) : Step s (playAgain s)
  | disc (s : GameState) (pid : String) : Step s (disconnect s pid)

/-- Room states reachable from the initial room state by handler
invocations. -/
inductive Reachable : GameState → Prop
  | init : Reachable createInitialGameState
  | step {s t : GameState} : Reachable s → Step s t → Reachable t

/-- A two-player room in which player A holds the turn and nobody has
played yet this round, fetched by A's `endTurn`. -/
def endTurnBugState : GameState :=
  { createInitialGameState with
    players := [("A", ⟨"A", "Alice"⟩), ("B", ⟨"B", "Bob"⟩)]
    playerOrder := ["A", "B"]
    currentPlayer := some "A"
    scores := [("A", 0), ("B", 0)]
    roundScores := [("A", 0), ("B", 0)] }

/-- A mid-turn state: A holds the turn after two rolls, dice 0 and 1 are
kept from the first roll, and the second roll has set `mustKeepDie`. -/
def doubleToggleState : GameState :=
  { createInitialGameState with
    players := [("A", ⟨"A", "Alice"⟩)]
    playerOrder := ["A"]
    currentPlayer := some "A"
    rollCount := 2
    dice := [2, 3, 1, 4, 5, 6]
    keptDice := [true, true, false, false, false, false]
    mustKeepDie := true }

/-- A room whose `playerOrder` is empty while the `players` map is not:
the state `getNextPlayer`'s fallback branch reads. -/
def emptyOrderState : GameState :=
  { createInitialGameState with
    players := [("A", ⟨"A", "Alice"⟩)]
    currentPlayer := none }

/-- A state in which A must keep a die before rolling again. -/
def mustKeepState : GameState :=
  { createInitialGameState with
    players := [("A", ⟨"A", "Alice"⟩)]
    playerOrder := ["A"]
    currentPlayer := some "A"
    rollCount := 1
    dice := [3, 3, 3, 3, 3, 3]
    mustKeepDie := true }

/-- A state captured mid-roll: A's roll is in flight (`isRolling`), no
die kept yet. -/
def rollingState : GameState :=
  { createInitialGameState with
    players := [("A", ⟨"A", "Alice"⟩)]
    playerOrder := ["A"]
    currentPlayer := some "A"
    rollCount := 1
    dice := [2, 2, 2, 2, 2, 2]
    keptDice := [true, false, false, false, false, false]
    isRolling := true }

/-! ### Theorems -/

/-- C10: `startNewRound` resets `roundEnded`, `playersPlayedThisRound`,
`roundScores` and zeroes every `scores` entry, but leaves `roundWinner`
unchanged: it still holds the previous round's winner. -/
theorem startNewRound_preserves_roundWinner (s : GameState) :
    (startNewRound s).roundWinner = s.roundWinner ∧
    (startNewRound s).roundEnded = false ∧
    (startNewRound s).playersPlayedThisRound = [] ∧
    (startNewRound s).roundScores = [] ∧
    (startNewRound s).scores =
      s.scores.map (fun (e : String × Int) => (e.1, (0 : Int))) := by
  unfold startNewRound resetTurnState
  cases s.roundWinner
  · simp
  · dsimp only
    split_ifs <;> simp

/-- C6: `checkRoundEnd` holds exactly when the number of distinct
player-ids recorded in `playersPlayedThisRound` reaches the current
number of keys of `players`; a join that grows `players` past that count
makes it false again. -/
theorem checkRoundEnd_iff_distinct_played_ge_players (s : GameState) :
    checkRoundEnd s = true ↔
      (mapKeys s.players).length ≤ s.playersPlayedThisRound.toFinset.card := by
  rw [List.card_toFinset]
  unfold checkRoundEnd
  exact decide_eq_true_iff

/-- C7: a `rollDice` request from a socket that is not `currentPlayer`,
or while `mustKeepDie` is set, or with every die kept after at least one
roll, is silently ignored: the state is unchanged and nothing is
persisted or broadcast. -/
theorem rollDice_guard_silently_ignored (s : GameState) (actor : String)
    (h : ¬(some actor = s.currentPlayer) ∨ s.mustKeepDie = true ∨
      ((∀ b ∈ s.keptDice, b = true) ∧ 0 < s.rollCount)) :
    rollDiceStart s actor = ⟨s, [], []⟩ := by
  unfold rollDiceStart
  split_ifs with h1 h2 h3 <;> try rfl
  exfalso
  simp only [Bool.not_eq_true', Bool.not_eq_false, decide_eq_true_eq]
    at h1 h2 h3
  rcases h with hcur | hmust | ⟨hall, hroll⟩
  · exact hcur h1
  · exact h2 hmust
  · apply h3
    have hany : s.keptDice.any (fun kept => !kept) = false := by
      simp only [List.any_eq_false]
      intro b hb
      simp [hall b hb]
    simp [hany, hroll]

/-- C7 witness: a concrete ignored roll (player A rolls while
`mustKeepDie` is set). -/
theorem rollDice_guard_silently_ignored_witness :
    rollDiceStart mustKeepState "A" = ⟨mustKeepState, [], []⟩ :=
  rollDice_guard_silently_ignored mustKeepState "A" (Or.inr (Or.inl rfl))

/-- C1: on the not-round-ended path the current `endTurn` handler does
not advance the turn and persists and broadcasts nothing — the fetched
state is left untouched in the store (even the score bookkeeping is
discarded), although the round has not ended; the earlier variant of
the handler kept in the sources advances `currentPlayer` to the
`getNextPlayer` result and persists, which is what the spec describes. -/
theorem endTurn_not_ended_discards_turn_advance :
    endTurn endTurnBugState "A" = ⟨endTurnBugState, [], []⟩ ∧
    checkRoundEnd
      { endTurnBugState with playersPlayedThisRound := ["A"] } = false ∧
    (endTurnPrev endTurnBugState "A").state.currentPlayer = some "B" ∧
    (endTurnPrev endTurnBugState "A").saved ≠ [] := by
  decide

/-- C2 counterexample: with kept dice `1, 1, 4, 2` the handler scores 2
(the extra kept 1 contributes nothing), while the claim's formula — sum
of all kept dice minus one 1 and one 4 — gives 3. -/
theorem computeTurnScore_extra_one_not_counted :
    computeTurnScore [1, 1, 4, 2, 0, 0]
        [true, true, true, true, false, false] = 2 ∧
    (((([1, 1, 4, 2, 0, 0] : List Int).zip
          [true, true, true, true, false, false]).filter
        (fun p => p.2)).map Prod.fst).sum - 1 - 4 = 3 := by
  decide

/-- `someKept` finds a kept die with value `v` exactly when the paired
dice/kept lists contain one. -/
theorem someKept_iff (dice : List Int) (kept : List Bool) (v : Int) :
    someKept dice kept v = true ↔
      ∃ p ∈ dice.zip kept, p.2 = true ∧ p.1 = v := by
  induction dice generalizing kept with
  | nil => simp [someKept]
  | cons d ds ih =>
      cases kept with
      | nil => simp [someKept]
      | cons k ks =>
          simp only [someKept, List.zip_cons_cons, List.mem_cons,
            Bool.or_eq_true, Bool.and_eq_true, decide_eq_true_eq, ih]
          constructor
          · rintro (⟨hk, hv⟩ | ⟨p, hp, h2, h1⟩)
            · exact ⟨(d, k), Or.inl rfl, hk, hv⟩
            · exact ⟨p, Or.inr hp, h2, h1⟩
          · rintro ⟨p, (rfl | hp), h2, h1⟩
            · exact Or.inl ⟨h2, h1⟩
            · exact Or.inr ⟨p, hp, h2, h1⟩

/-- Peeling the first die off the scoring loop. -/
theorem turnScoreLoop_cons (d : Int) (ds : List Int) (k : Bool)
    (ks : List Bool) (n : Nat) :
    turnScoreLoop (d :: ds) (k :: ks) (n + 1) =
      (if k && !(d = 1) && !(d = 4) then d else 0) +
        turnScoreLoop ds ks n := by
  induction n with
  | zero => simp [turnScoreLoop]
  | succ m ih =>
      show turnScoreLoop (d :: ds) (k :: ks) (m + 1) + _ = _
      rw [ih]
      show _ = _ + (turnScoreLoop ds ks m + _)
      simp only [List.getD_cons_succ]
      ring

/-- The scoring loop over two equal-length lists equals the sum of the
kept dice whose value is neither 1 nor 4. -/
theorem turnScoreLoop_eq_keptScoreSum (dice : List Int) (kept : List Bool)
    (h : dice.length = kept.length) :
    turnScoreLoop dice kept dice.length = keptScoreSum dice kept := by
  induction dice generalizing kept with
  | nil => simp [turnScoreLoop, keptScoreSum]
  | cons d ds ih =>
      cases kept with
      | nil => simp at h
      | cons k ks =>
          simp only [List.length_cons, Nat.succ.injEq] at h
          rw [show (d :: ds).length = ds.length + 1 from rfl,
            turnScoreLoop_cons, ih ks h]
          simp only [keptScoreSum, List.zip_cons_cons, List.filter_cons]
          by_cases hc : (k && !(d = 1) && !(d = 4)) = true
          · simp [hc]
          · simp only [Bool.not_eq_true] at hc
            simp [hc]

/-- C2 (amended): the `endTurn` turn score is non-zero only when some
kept die shows 1 and some kept die shows 4; when both are present, the
score is the sum of the kept dice whose value is neither 1 nor 4 — every
kept 1 and every kept 4, including extras beyond the first of each,
contributes nothing. -/
theorem computeTurnScore_characterization (dice : List Int)
    (kept : List Bool) (h1 : dice.length = 6) (h2 : kept.length = 6) :
    (computeTurnScore dice kept ≠ 0 →
      (∃ p ∈ dice.zip kept, p.2 = true ∧ p.1 = 1) ∧
      (∃ p ∈ dice.zip kept, p.2 = true ∧ p.1 = 4)) ∧
    ((∃ p ∈ dice.zip kept, p.2 = true ∧ p.1 = 1) →
      (∃ p ∈ dice.zip kept, p.2 = true ∧ p.1 = 4) →
        computeTurnScore dice kept = keptScoreSum dice kept) := by
  constructor
  · intro hne
    by_cases hb : (someKept dice kept 1 && someKept dice kept 4) = true
    · simp only [Bool.and_eq_true] at hb
      exact ⟨(someKept_iff dice kept 1).mp hb.1,
        (someKept_iff dice kept 4).mp hb.2⟩
    · exact absurd (by unfold computeTurnScore; simp [hb]) hne
  · intro hone hfour
    unfold computeTurnScore
    rw [(someKept_iff dice kept 1).mpr hone,
      (someKept_iff dice kept 4).mpr hfour]
    simp only [Bool.and_self, if_true]
    rw [show (6 : Nat) = dice.length from h1.symm]
    exact turnScoreLoop_eq_keptScoreSum dice kept (h1.trans h2.symm)

/-- C2 witness: the amended characterization evaluated at the
counterexample dice. -/
theorem computeTurnScore_characterization_witness :
    computeTurnScore [1, 1, 4, 2, 0, 0]
        [true, true, true, true, false, false] =
      keptScoreSum [1, 1, 4, 2, 0, 0]
        [true, true, true, true, false, false] :=
  (computeTurnScore_characterization [1, 1, 4, 2, 0, 0]
      [true, true, true, true, false, false] (by decide) (by decide)).2
    (by decide) (by decide)

/-- Setting an entry of a list to its own value is the identity. -/
theorem set_getD_self {α : Type} (l : List α) (i : Nat) (d : α)
    (h : i < l.length) : l.set i (l.getD i d) = l := by
  induction l generalizing i with
  | nil => simp at h
  | cons a t ih =>
      cases i with
      | zero => simp
      | succ j =>
          simp only [List.getD_cons_succ, List.set_cons_succ]
          rw [ih j (by simpa using h)]

/-- C4 (amended): under `keepDice`'s preconditions, toggling the same
index twice restores `keptDice[index]` to its original value, but
`mustKeepDie` ends up equal to "no die at all was kept in the original
state", which agrees with the pre-toggle value only when the pre-toggle
value already had that form. -/
theorem keepDice_double_toggle (s : GameState) (actor : String)
    (index : Int) (hcur : s.currentPlayer = some actor)
    (hroll : ¬s.rollCount = 0) (h0 : 0 ≤ index) (h6 : index < 6)
    (hdie : ¬s.dice.getD index.toNat 0 = 0)
    (hlen : s.keptDice.length = 6) :
    (keepDice (keepDice s actor index) actor index).keptDice =
      s.keptDice ∧
    (keepDice (keepDice s actor index) actor index).mustKeepDie =
      !(s.keptDice.any (fun kept => kept)) := by
  have hi : index.toNat < s.keptDice.length := by omega
  have hlt : ¬(index < 0) := not_lt.mpr h0
  have hge : ¬(6 ≤ index) := not_le.mpr h6
  have hk1 : ∀ b : Bool,
      (s.keptDice.set index.toNat b).getD index.toNat false = b := by
    intro b
    simp [List.getD_eq_getElem?_getD, List.getElem?_set_self hi]
  have hk2 : ∀ b : Bool,
      ((s.keptDice.set index.toNat b).set index.toNat
          (s.keptDice.getD index.toNat false)) = s.keptDice := by
    intro b
    rw [List.set_set, set_getD_self _ _ _ hi]
  by_cases w : s.keptDice.getD index.toNat false = true
  · -- the die was already kept: unkeep then re-keep
    have hmem : s.keptDice.any (fun kept => kept) = true := by
      rw [List.any_eq_true]
      refine ⟨s.keptDice[index.toNat], List.getElem_mem hi, ?_⟩
      have : s.keptDice.getD index.toNat false = s.keptDice[index.toNat] := by
        simp [List.getD_eq_getElem?_getD, List.getElem?_eq_getElem hi]
      rw [← this, w]
    have e1 : keepDice s actor index =
        if (s.keptDice.set index.toNat false).any (fun kept => kept) then
          { s with keptDice := s.keptDice.set index.toNat false }
        else
          { s with keptDice := s.keptDice.set index.toNat false,
                   mustKeepDie := true } := by
      unfold keepDice
      simp only [hcur, hroll, hlt, hge, hdie, w, hk1, Bool.not_true,
        if_false, if_true, ite_false, ite_true, Bool.false_eq_true,
        decide_True, decide_False, Bool.not_false, Bool.or_self,
        Option.some.injEq]
      split_ifs <;> simp_all [hk1]
    rcases ha1 : (s.keptDice.set index.toNat false).any (fun kept => kept)
      with _ | _
    all_goals {
      rw [e1, ha1]
      unfold keepDice
      simp only [hcur, hroll, hlt, hge, hdie]
      simp only [hk1, Bool.not_false, Bool.false_eq_true, if_false,
        ite_true, ite_false]
      have hset : (s.keptDice.set index.toNat false).set index.toNat true =
          s.keptDice := by
        have := hk2 false
        rwa [w] at this
      simp_all [hset, hmem]
    }
  · -- the die was not kept: keep then unkeep
    simp only [Bool.not_eq_true] at w
    have e1 : keepDice s actor index =
        { s with keptDice := s.keptDice.set index.toNat true,
                 mustKeepDie := false } := by
      unfold keepDice
      simp only [hcur, hroll, hlt, hge, hdie, w, hk1, Bool.not_false,
        if_true, ite_true, ite_false]
      split_ifs <;> simp_all [hk1]
    rw [e1]
    unfold keepDice
    simp only [hcur, hroll, hlt, hge, hdie]
    have hset : (s.keptDice.set index.toNat true).set index.toNat false =
        s.keptDice := by
      have := hk2 true
      rwa [w] at this
    simp only [hk1, Bool.not_true, if_false, ite_false, hset]
    cases ha : s.keptDice.any (fun kept => kept) <;> simp_all

/-- C4 counterexample: in a reachable mid-turn state (two dice kept
from the first roll, `mustKeepDie` set by the second roll), toggling die
0 twice restores `keptDice[0]` but drops `mustKeepDie` from `true` to
`false`: the second toggle counts as keeping a die. -/
theorem keepDice_double_toggle_not_restoring :
    doubleToggleState.mustKeepDie = true ∧
    (keepDice (keepDice doubleToggleState "A" 0) "A" 0).keptDice =
      doubleToggleState.keptDice ∧
    (keepDice (keepDice doubleToggleState "A" 0) "A" 0).mustKeepDie =
      false := by
  decide

/-- C4 witness: the amended double-toggle law evaluated at the same
mid-turn state. -/
theorem keepDice_double_toggle_witness :
    (keepDice (keepDice doubleToggleState "A" 0) "A" 0).keptDice =
      doubleToggleState.keptDice ∧
    (keepDice (keepDice doubleToggleState "A" 0) "A" 0).mustKeepDie =
      !(doubleToggleState.keptDice.any (fun kept => kept)) :=
  keepDice_double_toggle doubleToggleState "A" 0 (by decide) (by decide)
    (by decide) (by decide) (by decide) (by decide)

/-- Casting `(i + 1) mod n` between `Int` and `Nat`. -/
theorem toNat_add_one_emod (i n : Nat) :
    (((i : Int) + 1) % (n : Int)).toNat = (i + 1) % n := by
  have h1 : ((i : Int) + 1) = ((i + 1 : Nat) : Int) := by push_cast; ring
  rw [h1, ← Int.ofNat_emod]
  exact Int.toNat_natCast _

/-- The shared branch body of `getNextPlayer` agrees with the
round-robin successor on a nonempty id list free of empty ids. -/
theorem indexOfJS_branch_eq_nextRoundRobin (l : List String)
    (cur : Option String) (hne : l ≠ []) (hnil : ¬"" ∈ l) :
    (if indexOfJS l (cur.getD "") = -1 then l[0]?
     else l[((indexOfJS l (cur.getD "") + 1) %
        (l.length : Int)).toNat]?) = nextRoundRobin l cur := by
  obtain ⟨a, t, rfl⟩ : ∃ a t, l = a :: t := by
    cases l with
    | nil => exact absurd rfl hne
    | cons a t => exact ⟨a, t, rfl⟩
  cases cur with
  | none =>
      have hf : (a :: t).findIdx? (fun y => y = "") = none := by
        rw [List.findIdx?_eq_none_iff]
        intro x hx
        exact decide_eq_false (fun he => hnil (he ▸ hx))
      simp [nextRoundRobin, indexOfJS, Option.getD, hf]
  | some c =>
      cases hf : (a :: t).findIdx? (fun y => y = c) with
      | none => simp [nextRoundRobin, indexOfJS, hf]
      | some i =>
          have hne1 : ((i : Int)) ≠ -1 := by omega
          simp only [nextRoundRobin, indexOfJS, Option.getD_some, hf,
            if_neg hne1]
          rw [toNat_add_one_emod i _]

/-- C5 (amended): `getNextPlayer` returns the entry following
`currentPlayer` in `playerOrder`, wrapping to the start, or the first
entry when `currentPlayer` is absent — but when `playerOrder` is empty
it does not return null: it falls back to the keys of the `players` map
with the same successor rule, and returns null only when that list is
empty too. -/
theorem getNextPlayer_characterization (s : GameState)
    (hord : ¬"" ∈ s.playerOrder) (hpl : ¬"" ∈ mapKeys s.players) :
    getNextPlayer s =
      if s.playerOrder.isEmpty then
        nextRoundRobin (mapKeys s.players) s.currentPlayer
      else nextRoundRobin s.playerOrder s.currentPlayer := by
  by_cases hord0 : s.playerOrder = []
  · rw [if_pos (by simp [hord0])]
    by_cases hpl0 : mapKeys s.players = []
    · unfold getNextPlayer
      simp [hord0, hpl0, nextRoundRobin]
    · unfold getNextPlayer
      rw [if_neg (by simp [hord0]),
        if_neg (List.length_pos.mpr hpl0).ne']
      exact indexOfJS_branch_eq_nextRoundRobin _ _ hpl0 hpl
  · rw [if_neg (by simpa using hord0)]
    unfold getNextPlayer
    rw [if_pos (List.length_pos.mpr hord0)]
    exact indexOfJS_branch_eq_nextRoundRobin _ _ hord0 hord

/-- C5 counterexample: a room whose `playerOrder` is empty while the
`players` map holds A — `getNextPlayer` returns A, not null. -/
theorem getNextPlayer_empty_order_not_null :
    emptyOrderState.playerOrder = [] ∧
    getNextPlayer emptyOrderState = some "A" := by
  decide

/-- C5 witness: the characterization evaluated on a two-player room. -/
theorem getNextPlayer_characterization_witness :
    getNextPlayer endTurnBugState =
      if endTurnBugState.playerOrder.isEmpty then
        nextRoundRobin (mapKeys endTurnBugState.players)
          endTurnBugState.currentPlayer
      else
        nextRoundRobin endTurnBugState.playerOrder
          endTurnBugState.currentPlayer :=
  getNextPlayer_characterization endTurnBugState (by decide) (by decide)

/-- Extending the re-roll loop by one index. -/
theorem rollLoop_succ (d : List Int) (k : List Bool) (rng : Nat → Int)
    (n : Nat) :
    rollLoop d k rng (n + 1) =
      (if !(k.getD n false) then (rollLoop d k rng n).set n (rng n)
       else rollLoop d k rng n) := by
  unfold rollLoop
  rw [List.range_succ, List.foldl_append]
  simp

/-- The re-roll loop preserves the number of dice. -/
theorem rollLoop_length (d : List Int) (k : List Bool) (rng : Nat → Int)
    (n : Nat) : (rollLoop d k rng n).length = d.length := by
  induction n with
  | zero => rfl
  | succ m ih =>
      rw [rollLoop_succ]
      split <;> simp [ih]

/-- Indices the re-roll loop has not reached keep their value. -/
theorem rollLoop_getElem?_ge (d : List Int) (k : List Bool)
    (rng : Nat → Int) (n j : Nat) (hj : n ≤ j) :
    (rollLoop d k rng n)[j]? = d[j]? := by
  induction n with
  | zero => rfl
  | succ m ih =>
      rw [rollLoop_succ]
      have hmj : m ≠ j := by omega
      split
      · rw [List.getElem?_set_ne hmj, ih (by omega)]
      · exact ih (by omega)

/-- Indices the re-roll loop has passed: kept dice keep their value,
unkept dice hold the freshly rolled value. -/
theorem rollLoop_getElem?_lt (d : List Int) (k : List Bool)
    (rng : Nat → Int) (n j : Nat) (hj : j < n) (hd : j < d.length) :
    (rollLoop d k rng n)[j]? =
      if k.getD j false then d[j]? else some (rng j) := by
  induction n with
  | zero => omega
  | succ m ih =>
      rw [rollLoop_succ]
      by_cases hmj : j = m
      · subst hmj
        cases hk : k.getD j false with
        | false =>
            simp only [hk, Bool.not_false, if_true, ite_true, if_false,
              ite_false]
            rw [List.getElem?_set_self (by rw [rollLoop_length]; exact hd)]
            simp
        | true =>
            simp only [hk, Bool.not_true, if_false, ite_false, ite_true]
            exact rollLoop_getElem?_ge d k rng j j le_rfl
      · have hjm : j < m := by omega
        split
        · rw [List.getElem?_set_ne (by omega), ih hjm]
        · exact ih hjm

/-- C8: the delayed roll completion never commits for an invalidated
actor — when the re-fetched state is gone, or its `currentPlayer` is no
longer the actor, or `isRolling` was cleared, nothing is written; when
still valid, every unkept die index receives the rolled value (in
`[1, 6]` whenever the rng produces values in `[1, 6]`), kept indices
retain their prior value, `rollCount` is incremented, `mustKeepDie` is
set and `isRolling` is cleared. -/
theorem rollComplete_guard_and_update (c : GameState) (actor : String)
    (rng : Nat → Int) (hrng : ∀ i, 1 ≤ rng i ∧ rng i ≤ 6)
    (hd : c.dice.length = 6) :
    rollDiceComplete none actor rng = none ∧
    (¬(c.currentPlayer = some actor) ∨ c.isRolling = false →
      rollDiceComplete (some c) actor rng = none) ∧
    (c.currentPlayer = some actor → c.isRolling = true →
      (rollDiceComplete (some c) actor rng).isSome = true ∧
      (rollCompleteState c actor rng).rollCount = c.rollCount + 1 ∧
      (rollCompleteState c actor rng).mustKeepDie = true ∧
      (rollCompleteState c actor rng).isRolling = false ∧
      (rollCompleteState c actor rng).dice.length = 6 ∧
      (∀ j, j < 6 → c.keptDice.getD j false = true →
        (rollCompleteState c actor rng).dice[j]? = c.dice[j]?) ∧
      (∀ j, j < 6 → c.keptDice.getD j false = false →
        (rollCompleteState c actor rng).dice[j]? = some (rng j) ∧
          1 ≤ rng j ∧ rng j ≤ 6)) := by
  refine ⟨rfl, ?_, ?_⟩
  · intro h
    unfold rollDiceComplete
    rcases h with h | h
    · simp [h]
    · simp [h]
  · intro hcur hroll
    have hvalid : rollDiceComplete (some c) actor rng =
        some { c with
          dice := rollLoop c.dice c.keptDice rng 6
          rollCount := c.rollCount + 1
          mustKeepDie := true
          isRolling := false } := by
      unfold rollDiceComplete
      simp [hcur, hroll]
    have hstate : rollCompleteState c actor rng =
        { c with
          dice := rollLoop c.dice c.keptDice rng 6
          rollCount := c.rollCount + 1
          mustKeepDie := true
          isRolling := false } := by
      unfold rollCompleteState
      rw [hvalid]
      rfl
    refine ⟨by rw [hvalid]; rfl, ?_, ?_, ?_, ?_, ?_, ?_⟩ <;>
      rw [hstate] <;> dsimp only
    · rw [rollLoop_length]; exact hd
    · intro j hj hk
      rw [rollLoop_getElem?_lt c.dice c.keptDice rng 6 j hj (by omega), hk]
      simp
    · intro j hj hk
      rw [rollLoop_getElem?_lt c.dice c.keptDice rng 6 j hj (by omega), hk]
      exact ⟨by simp, (hrng j).1, (hrng j).2⟩

/-- C8 witness: the roll completion evaluated on a concrete in-flight
roll with a constant rng. -/
theorem rollComplete_guard_and_update_witness :
    (rollDiceComplete (some rollingState) "A" (fun _ => 3)).isSome =
        true ∧
    (rollCompleteState rollingState "A" (fun _ => 3)).rollCount =
      rollingState.rollCount + 1 ∧
    (rollCompleteState rollingState "A" (fun _ => 3)).mustKeepDie =
      true ∧
    (rollCompleteState rollingState "A" (fun _ => 3)).isRolling =
      false ∧
    (rollCompleteState rollingState "A" (fun _ => 3)).dice.length = 6 ∧
    (∀ j, j < 6 → rollingState.keptDice.getD j false = true →
      (rollCompleteState rollingState "A" (fun _ => 3)).dice[j]? =
        rollingState.dice[j]?) ∧
    (∀ j, j < 6 → rollingState.keptDice.getD j false = false →
      (rollCompleteState rollingState "A" (fun _ => 3)).dice[j]? =
        some 3 ∧ (1 : Int) ≤ 3 ∧ (3 : Int) ≤ 6) :=
  (rollComplete_guard_and_update rollingState "A" (fun _ => 3)
      (fun _ => by norm_num) (by decide)).2.2 rfl rfl

/-- Unfolding `maxRunning` over a cons cell. -/
theorem maxRunning_cons (f : String × Int) (t : List (String × Int))
    (h0 : Int) : maxRunning (f :: t) h0 = maxRunning t (max h0 f.2) := rfl

/-- The running maximum dominates its seed. -/
theorem le_maxRunning (m : List (String × Int)) (h0 : Int) :
    h0 ≤ maxRunning m h0 := by
  induction m generalizing h0 with
  | nil => exact le_refl h0
  | cons f t ih =>
      rw [maxRunning_cons]
      exact le_trans (le_max_left h0 f.2) (ih (max h0 f.2))

/-- The running maximum dominates every score in the list. -/
theorem mem_le_maxRunning (m : List (String × Int)) (h0 : Int)
    (e : String × Int) (he : e ∈ m) : e.2 ≤ maxRunning m h0 := by
  induction m generalizing h0 with
  | nil => simp at he
  | cons f t ih =>
      rw [maxRunning_cons]
      rcases List.mem_cons.mp he with rfl | ht
      · exact le_trans (le_max_right h0 e.2) (le_maxRunning t _)
      · exact ih (max h0 f.2) ht

/-- The running maximum is the least upper bound of seed and scores. -/
theorem maxRunning_le (m : List (String × Int)) (h0 v : Int)
    (hh : h0 ≤ v) (hm : ∀ e ∈ m, e.2 ≤ v) : maxRunning m h0 ≤ v := by
  induction m generalizing h0 with
  | nil => exact hh
  | cons f t ih =>
      rw [maxRunning_cons]
      exact ih _ (max_le hh (hm f (List.mem_cons_self f t)))
        (fun e he => hm e (List.mem_cons_of_mem f he))

/-- The winners accumulated by `determineRoundWinner`'s scan are the
ids of the entries achieving the final running maximum (after the seed
entries when the seed survives as the maximum). -/
theorem winnersFoldl_char (m : List (String × Int)) (h0 : Int)
    (w0 : List String) :
    m.foldl winnerStep (h0, w0) =
      (maxRunning m h0,
       (if maxRunning m h0 = h0 then w0 else []) ++
         (m.filter (fun e => e.2 = maxRunning m h0)).map Prod.fst) := by
  induction m generalizing h0 w0 with
  | nil => simp [maxRunning]
  | cons f t ih =>
      rw [List.foldl_cons, maxRunning_cons]
      rcases lt_trichotomy h0 f.2 with hlt | heq | hgt
      · have hstep : winnerStep (h0, w0) f = (f.2, [f.1]) := by
          unfold winnerStep
          rw [if_pos hlt]
        have hmax : max h0 f.2 = f.2 := max_eq_right hlt.le
        rw [hstep, ih, hmax]
        have hM : f.2 ≤ maxRunning t f.2 := le_maxRunning t f.2
        have hMh0 : ¬maxRunning t f.2 = h0 := by omega
        rw [if_neg hMh0]
        simp only [List.filter_cons, List.nil_append]
        by_cases hf : f.2 = maxRunning t f.2
        · simp only [← hf]
          simp
        · have hf2 : ¬maxRunning t f.2 = f.2 := fun h => hf h.symm
          simp [hf, hf2]
      · have hstep : winnerStep (h0, w0) f = (h0, w0 ++ [f.1]) := by
          unfold winnerStep
          rw [if_neg (by omega), if_pos heq.symm]
        have hmax : max h0 f.2 = h0 := max_eq_left heq.ge
        rw [hstep, ih, hmax]
        simp only [List.filter_cons]
        by_cases hM : maxRunning t h0 = h0
        · simp [hM, ← heq, List.append_assoc]
        · have hfM : ¬(f.2 = maxRunning t h0) := by omega
          simp [hM, hfM]
      · have hstep : winnerStep (h0, w0) f = (h0, w0) := by
          unfold winnerStep
          rw [if_neg (by omega), if_neg (by omega)]
        have hmax : max h0 f.2 = h0 := max_eq_left hgt.le
        rw [hstep, ih, hmax]
        have hM : h0 ≤ maxRunning t h0 := le_maxRunning t h0
        have hfM : ¬(f.2 = maxRunning t h0) := by omega
        simp [List.filter_cons, hfM]

/-- With duplicate-free keys, an association list is functional. -/
theorem keys_nodup_mem_unique (m : List (String × Int))
    (hnd : (m.map Prod.fst).Nodup) {w : String} {v1 v2 : Int}
    (h1 : (w, v1) ∈ m) (h2 : (w, v2) ∈ m) : v1 = v2 := by
  induction m with
  | nil => simp at h1
  | cons f t ih =>
      rw [List.map_cons, List.nodup_cons] at hnd
      rcases List.mem_cons.mp h1 with heq1 | h1t <;>
        rcases List.mem_cons.mp h2 with heq2 | h2t
      · rw [← heq1] at heq2
        exact (Prod.ext_iff.mp heq2).2.symm
      · exfalso
        apply hnd.1
        rw [← heq1]
        exact List.mem_map.mpr ⟨(w, v2), h2t, rfl⟩
      · exfalso
        apply hnd.1
        rw [← heq2]
        exact List.mem_map.mpr ⟨(w, v1), h1t, rfl⟩
      · exact ih hnd.2 h1t h2t

/-- A filter whose predicate singles out one present entry of a
key-duplicate-free association list yields that singleton. -/
theorem filter_eq_singleton_keyed (m : List (String × Int))
    (hnd : (m.map Prod.fst).Nodup) (x : String × Int) (hx : x ∈ m)
    (p : String × Int → Bool) (hp : ∀ e ∈ m, (p e = true ↔ e = x)) :
    m.filter p = [x] := by
  induction m with
  | nil => simp at hx
  | cons f t ih =>
      rw [List.map_cons, List.nodup_cons] at hnd
      by_cases hfx : f = x
      · subst hfx
        have hnone : t.filter p = [] := by
          rw [List.filter_eq_nil_iff]
          intro a ha hpa
          have : a = f := (hp a (List.mem_cons_of_mem f ha)).mp hpa
          subst this
          exact hnd.1 (List.mem_map_of_mem Prod.fst ha)
        rw [List.filter_cons, if_pos ((hp f (List.mem_cons_self f t)).mpr
          rfl), hnone]
      · have hxt : x ∈ t := by
          rcases List.mem_cons.mp hx with heq | ht
          · exact absurd heq.symm hfx
          · exact ht
        have hpf : ¬(p f = true) := fun h =>
          hfx ((hp f (List.mem_cons_self f t)).mp h)
        rw [List.filter_cons, if_neg hpf]
        exact ih hnd.2 hxt
          (fun e he => hp e (List.mem_cons_of_mem f he))

/-- C3: with non-negative scores and duplicate-free keys (as produced by
the game), `determineRoundWinner` returns a player exactly when that
player's score strictly exceeds every other player's score; in every
other case — in particular any tie for the maximum — it returns null. -/
theorem determineRoundWinner_iff_unique_strict_max
    (m : List (String × Int)) (hnn : ∀ e ∈ m, 0 ≤ e.2)
    (hnd : (m.map Prod.fst).Nodup) (w : String) :
    determineRoundWinner
        { createInitialGameState with roundScores := m } = some w ↔
      ∃ v, (w, v) ∈ m ∧ ∀ e ∈ m, e.1 ≠ w → e.2 < v := by
  have hfold : m.foldl winnerStep (-1, []) =
      (maxRunning m (-1),
       (m.filter (fun e => e.2 = maxRunning m (-1))).map Prod.fst) := by
    rw [winnersFoldl_char]
    simp [ite_self]
  simp only [determineRoundWinner]
  rw [hfold]
  dsimp only
  constructor
  · intro hres
    by_cases hlen :
        ((m.filter (fun e => e.2 = maxRunning m (-1))).map
          Prod.fst).length = 1
    · rw [if_pos hlen] at hres
      have hlenF : (m.filter (fun e => e.2 = maxRunning m (-1))).length
          = 1 := by
        rw [← List.length_map _ Prod.fst]
        exact hlen
      obtain ⟨f, hF⟩ := List.length_eq_one.mp hlenF
      rw [hF] at hres
      simp only [List.map_cons, List.map_nil, List.getElem?_cons_zero,
        Option.some.injEq] at hres
      have hfF : f ∈ m.filter (fun e => e.2 = maxRunning m (-1)) := by
        rw [hF]
        exact List.mem_cons_self f []
      have hfm : f ∈ m := List.mem_of_mem_filter hfF
      have hfM : f.2 = maxRunning m (-1) :=
        of_decide_eq_true (List.mem_filter.mp hfF).2
      refine ⟨maxRunning m (-1), ?_, ?_⟩
      · have hfwM : f = (w, maxRunning m (-1)) := by
          obtain ⟨a, b⟩ := f
          simp only at hres hfM
          rw [hres, hfM]
        rw [← hfwM]
        exact hfm
      · intro e he hew
        rcases lt_or_eq_of_le (mem_le_maxRunning m (-1) e he) with hlt | heq
        · exact hlt
        · exfalso
          have heF : e ∈ m.filter (fun e => e.2 = maxRunning m (-1)) :=
            List.mem_filter.mpr ⟨he, by simp [heq]⟩
          rw [hF, List.mem_singleton] at heF
          apply hew
          rw [heF, hres]
    · rw [if_neg hlen] at hres
      exact absurd hres (by simp)
  · rintro ⟨v, hwv, hstrict⟩
    have hv0 : 0 ≤ v := hnn (w, v) hwv
    have hallle : ∀ e ∈ m, e.2 ≤ v := by
      intro e he
      by_cases hew : e.1 = w
      · obtain ⟨a, b⟩ := e
        simp only at hew
        subst hew
        exact le_of_eq (keys_nodup_mem_unique m hnd he hwv)
      · exact (hstrict e he hew).le
    have hMv : maxRunning m (-1) = v :=
      le_antisymm (maxRunning_le m (-1) v (by omega) hallle)
        (mem_le_maxRunning m (-1) (w, v) hwv)
    have hFsing : m.filter (fun e => e.2 = maxRunning m (-1)) =
        [(w, v)] := by
      apply filter_eq_singleton_keyed m hnd (w, v) hwv
      intro e he
      constructor
      · intro hpe
        have heM : e.2 = v := (of_decide_eq_true hpe).trans hMv
        by_cases hew : e.1 = w
        · obtain ⟨a, b⟩ := e
          simp only at hew heM
          rw [hew, heM]
        · exact absurd heM (ne_of_lt (hstrict e he hew))
      · rintro rfl
        simp [hMv]
    rw [hFsing]
    simp

/-- C3 witness: the characterization instantiated on the spec's example
`roundScores = {A: 12, B: 7}`, giving winner A. -/
theorem determineRoundWinner_iff_unique_strict_max_witness :
    determineRoundWinner
        { createInitialGameState with
          roundScores := [("A", 12), ("B", 7)] } = some "A" :=
  (determineRoundWinner_iff_unique_strict_max [("A", 12), ("B", 7)]
      (by decide) (by decide) "A").mpr ⟨12, by decide, by decide⟩

/-- C9: every room state reachable from the initial state through any
sequence of handler invocations keeps six dice and six kept-flags. -/
theorem reachable_dice_keptDice_length (s : GameState)
    (h : Reachable s) : s.dice.length = 6 ∧ s.keptDice.length = 6 := by
  induction h with
  | init => exact ⟨rfl, rfl⟩
  | step hr hstep ih =>
      cases hstep with
      | join pid name =>
          unfold joinRoom
          dsimp only
          split_ifs <;>
            first
              | exact ⟨ih.1, ih.2⟩
              | exact ⟨rfl, rfl⟩
      | rollStart actor =>
          unfold rollDiceStart
          split_ifs <;> exact ⟨ih.1, ih.2⟩
      | rollComplete actor rng =>
          unfold rollCompleteState rollDiceComplete
          dsimp only
          split_ifs
          · exact ⟨ih.1, ih.2⟩
          · simp [rollLoop_length, ih.1, ih.2]
      | keep actor index =>
          unfold keepDice
          dsimp only
          split_ifs <;>
            first
              | exact ⟨ih.1, ih.2⟩
              | simp [List.length_set, ih.1, ih.2]
      | endT actor =>
          unfold endTurn
          dsimp only
          split_ifs <;> exact ⟨ih.1, ih.2⟩
      | again =>
          unfold playAgain
          split_ifs
          · exact ⟨rfl, rfl⟩
          · exact ⟨ih.1, ih.2⟩
      | disc pid =>
          unfold disconnect
          dsimp only
          split_ifs <;>
            first
              | exact ⟨ih.1, ih.2⟩
              | (split <;>
                  first
                    | exact ⟨rfl, rfl⟩
                    | exact ⟨ih.1, ih.2⟩)

/-- C9 witness: the invariant holds of the initial room state. -/
theorem reachable_dice_keptDice_length_witness :
    Reachable createInitialGameState ∧
    createInitialGameState.dice.length = 6 ∧
    createInitialGameState.keptDice.length = 6 :=
  ⟨Reachable.init,
    reachable_dice_keptDice_length createInitialGameState Reachable.init⟩

end Midnight
